import Mathlib

/-!
Verification of the ledgeknaw catalog service.

The development shallowly embeds the two source modules:

* `db.rs` — the Catalog Store (`Database`): a relational catalog of
  directories and documents, embedded as lists of rows with the SQL
  statements translated to pure list operations under PostgreSQL
  semantics (unique constraints, `ON CONFLICT DO NOTHING`,
  `ORDER BY parent DESC` with its NULLS FIRST default, `UNION`
  set-deduplication).
* `state.rs` — the `DocumentService` (`sync`, `read_file`), embedded as
  state-passing functions over the catalog; external effects
  (path canonicalization, `tokio::fs::metadata` probes, the uuid parser,
  disk reads, store-level failures of a removal) are supplied by an
  explicit environment value.

Collaborators of this repository that are not in the two source files
(`trim_roots`, `get_all_file_paths`, `remove_file_by_path`,
`get_doc_id_path_by_custom_id`, `process_root_directory`) are modelled
from the specification's interface contracts; each such definition is
marked in its doc comment.
-/

/-- Domain error kinds (KnawledgeError / LedgeknawError): a missing row
carrying the lookup identifier, a store-level failure, an I/O failure. -/
inductive Err where
  | notFound (id : String)
  | store
  | io
deriving DecidableEq

/-- Row of the `directories` relation: `id, path (unique), name, parent
(nullable reference to directories.id)`.  Uuids are embedded as `Nat`. -/
structure Directory where
  id : Nat
  path : String
  name : String
  parent : Option Nat
deriving DecidableEq

/-- Row of the `documents` relation: `id, file_name, directory
(reference to directories.id), path (unique), title, custom_id
(nullable, unique when present), created_at, updated_at`. -/
structure Document where
  id : Nat
  file_name : String
  directory : Nat
  path : String
  title : Option String
  custom_id : Option String
  created_at : Nat
  updated_at : Nat
deriving DecidableEq

/-- The catalog state: the two relations, plus the generator used for
ids the database assigns on `INSERT INTO directories ... RETURNING *`. -/
structure Db where
  directories : List Directory
  documents : List Document
  nextId : Nat
deriving DecidableEq

/-- Projection row returned by the hierarchical listing queries. -/
structure DirectoryEntry where
  id : Nat
  parent : Option Nat
  name : String
  type : String
  title : Option String
  custom_id : Option String
deriving DecidableEq

/-- Data loaded from disk for a resolved document: its identity and path
(content itself is outside the embedding). -/
structure DocumentData where
  id : Nat
  path : String
deriving DecidableEq

/-- Flat description of one subdirectory the filesystem walker will
visit under a root: its path, display name, and its parent's path. -/
structure FsDirSpec where
  path : String
  name : String
  parentPath : String
deriving DecidableEq

/-- Flat description of one document-bearing file the filesystem walker
will visit under a root. -/
structure FsDocSpec where
  id : Nat
  file_name : String
  dirPath : String
  path : String
  title : Option String
  custom_id : Option String
  created_at : Nat
  updated_at : Nat
deriving DecidableEq

/-- The external environment of the service: path canonicalization,
the `tokio::fs::metadata` probe (true when the probe succeeds), the
uuid-crate parser, disk readability, the filesystem tree visible to the
walker under a canonical root, and which removal statements fail at the
store level. -/
structure Env where
  canonicalize : String → Option String
  metadata : String → Bool
  parseUuid : String → Option Nat
  diskOk : String → Bool
  subdirs : String → List FsDirSpec
  docs : String → List FsDocSpec
  removeFileFails : String → Bool

/-! ## Catalog Store operations (src/db.rs) -/

/-- `INSERT INTO directories(path, name, parent) VALUES($1,$2,$3)
RETURNING *`: fails on a unique violation of `path` or a missing
`parent` reference, otherwise appends a fresh row with a
database-assigned id. -/
def insert_directory (path name : String) (parent : Option Nat) (db : Db) :
    Except Err (Directory × Db) :=
  if db.directories.any (fun d => d.path == path) then .error .store
  else
    match parent with
    | none =>
      .ok (⟨db.nextId, path, name, none⟩,
        ⟨db.directories ++ [⟨db.nextId, path, name, none⟩], db.documents,
          db.nextId + 1⟩)
    | some pid =>
      if db.directories.any (fun d => d.id == pid) then
        .ok (⟨db.nextId, path, name, some pid⟩,
          ⟨db.directories ++ [⟨db.nextId, path, name, some pid⟩], db.documents,
            db.nextId + 1⟩)
      else .error .store

/-- The `ON CONFLICT` condition of `insert_document`: some existing row
collides with the candidate on any unique constraint of `documents`
(primary key `id`, unique `path`, or unique-when-present `custom_id`). -/
def doc_conflict (doc : Document) (db : Db) : Bool :=
  db.documents.any fun d =>
    d.id == doc.id || d.path == doc.path ||
      (doc.custom_id.isSome && d.custom_id == doc.custom_id)

/-- `INSERT INTO documents VALUES($1,...,$8) ON CONFLICT DO NOTHING`:
a conflict with any unique constraint makes the statement succeed while
inserting nothing; otherwise the row is inserted (a dangling `directory`
reference is a store error, as `ON CONFLICT` does not cover foreign
keys). -/
def insert_document (doc : Document) (db : Db) : Except Err Db :=
  if doc_conflict doc db then .ok db
  else if db.directories.any (fun d => d.id == doc.directory) then
    .ok ⟨db.directories, db.documents ++ [doc], db.nextId⟩
  else .error .store

/-- `SELECT * FROM directories WHERE path = $1` with `fetch_optional`. -/
def get_dir_by_path (path : String) (db : Db) : Option Directory :=
  db.directories.find? (fun d => d.path == path)

/-- `SELECT path FROM documents WHERE id = $1` with `fetch_optional`
(Database::get_document_path; DocumentDb::get_doc_path at the `sync` /
`read_file` call sites). -/
def get_doc_path (id : Nat) (db : Db) : Option String :=
  (db.documents.find? (fun d => d.id == id)).map (fun d => d.path)

/-- Modelled from the spec: `get_doc_id_path_by_custom_id` is a thin
Catalog Store extension (missing from src/), the custom-id analogue of
`get_document_path_by_custom_id` in db.rs that additionally returns the
row's primary id, as inferred from the `read_file` call site. -/
def get_doc_id_path_by_custom_id (cid : String) (db : Db) :
    Option (Nat × String) :=
  (db.documents.find? (fun d => d.custom_id == some cid)).map
    (fun d => (d.id, d.path))

/-- Modelled from the spec: `DELETE FROM directories WHERE path = $1`
(db.rs) runs against the §6 schema — whose migrations are missing from
src/ — in which `documents.directory` and `directories.parent` reference
`directories.id` with no cascade clause.  PostgreSQL's default NO ACTION
therefore rejects the statement with a store error whenever a deleted
row is still referenced by a document or by a surviving subdirectory,
deleting nothing; otherwise the matching rows are deleted, and matching
no row at all remains a success. -/
def remove_dir (path : String) (db : Db) : Except Err Db :=
  if (db.directories.filter (fun d => d.path == path)).any (fun r =>
      (db.directories.filter (fun d => !(d.path == path))).any
        (fun c => c.parent == some r.id) ||
      db.documents.any (fun doc => doc.directory == r.id))
  then .error .store
  else .ok ⟨db.directories.filter (fun d => !(d.path == path)), db.documents, db.nextId⟩

/-- `DELETE FROM documents WHERE path = $1`: delete-if-present, the
statement succeeds whether or not a row matched. -/
def remove_file (path : String) (db : Db) : Except Err Db :=
  .ok ⟨db.directories, db.documents.filter (fun d => !(d.path == path)), db.nextId⟩

/-! ## Claims about the plain Catalog Store operations -/

/-- Claim C2: re-inserting a document whose id is already present in the
catalog succeeds and leaves the catalog — in particular the existing
row's title, custom_id and timestamps — completely unchanged. -/
theorem insert_document_idempotent_in_id (db : Db) (d d' : Document)
    (hmem : d ∈ db.documents) (hid : d'.id = d.id) :
    insert_document d' db = .ok db := by
  have hconf : doc_conflict d' db = true := by
    simp only [doc_conflict, List.any_eq_true]
    exact ⟨d, hmem, by simp [hid]⟩
  simp [insert_document, hconf]

def dbC2 : Db :=
  ⟨[⟨1, "/r", "r", none⟩],
   [⟨10, "a.md", 1, "/r/a.md", some ("T"), some ("alpha"), 5, 6⟩], 2⟩

def docC2 : Document :=
  ⟨10, "b.md", 1, "/r/b.md", some ("U"), some ("beta"), 7, 8⟩

/-- Witness for claim C2 at a concrete catalog: a second insert carrying
an existing id (with different metadata) returns ok and changes
nothing. -/
theorem insert_document_idempotent_in_id_witness :
    insert_document docC2 dbC2 = .ok dbC2 :=
  insert_document_idempotent_in_id dbC2
    ⟨10, "a.md", 1, "/r/a.md", some ("T"), some ("alpha"), 5, 6⟩ docC2
    (by decide) (by decide)

/-- Claim C9: `insert_document` swallows a conflict on any unique
constraint, not only the id key: whenever some existing row collides on
path, or on a present custom_id, or on id, the call succeeds and inserts
nothing. -/
theorem insert_document_swallows_any_unique_conflict (db : Db)
    (doc : Document)
    (h : ∃ d ∈ db.documents,
      d.path = doc.path ∨ (doc.custom_id.isSome ∧ d.custom_id = doc.custom_id) ∨
        d.id = doc.id) :
    insert_document doc db = .ok db := by
  obtain ⟨d, hd, hcase⟩ := h
  have hconf : doc_conflict doc db = true := by
    simp only [doc_conflict, List.any_eq_true]
    refine ⟨d, hd, ?_⟩
    rcases hcase with h1 | ⟨h2, h3⟩ | h4
    · simp [h1]
    · simp [h2, h3]
    · simp [h4]
  simp [insert_document, hconf]

def docC9 : Document :=
  ⟨99, "c.md", 1, "/r/a.md", none, none, 7, 8⟩

/-- Witness for claim C9: a document with a fresh id whose path is
already present is silently swallowed (ok, nothing inserted). -/
theorem insert_document_swallows_any_unique_conflict_witness :
    insert_document docC9 dbC2 = .ok dbC2 :=
  insert_document_swallows_any_unique_conflict dbC2 docC9
    ⟨⟨10, "a.md", 1, "/r/a.md", some ("T"), some ("alpha"), 5, 6⟩,
      by decide, Or.inl (by decide)⟩

/-- Claim C7: a successful `insert_directory p n none` followed by
`get_dir_by_path p` returns a directory whose path is `p`, whose name is
`n`, and whose parent is absent. -/
theorem insert_directory_roundtrip (db : Db) (p n : String)
    (d : Directory) (db' : Db)
    (h : insert_directory p n none db = .ok (d, db')) :
    ∃ dir, get_dir_by_path p db' = some dir ∧
      dir.path = p ∧ dir.name = n ∧ dir.parent = none := by
  unfold insert_directory at h
  by_cases hc : db.directories.any (fun d => d.path == p) = true
  · simp [hc] at h
  · simp only [Bool.not_eq_true] at hc
    simp only [hc, Bool.false_eq_true, if_false] at h
    obtain ⟨-, hdb⟩ := Prod.mk.injEq .. ▸ (Except.ok.injEq .. ▸ h)
    refine ⟨⟨db.nextId, p, n, none⟩, ?_, rfl, rfl, rfl⟩
    have hnone : db.directories.find? (fun d => d.path == p) = none := by
      rw [List.find?_eq_none]
      exact List.any_eq_false.mp hc
    unfold get_dir_by_path
    rw [← hdb]
    simp [List.find?_append, hnone]

def dbEmpty : Db := ⟨[], [], 0⟩

/-- Witness for claim C7: inserting a root directory into the empty
catalog and reading it back by path yields that path, name, and no
parent. -/
theorem insert_directory_roundtrip_witness :
    ∃ dir, get_dir_by_path ("/top") ⟨[⟨0, "/top", "top", none⟩], [], 1⟩ = some dir ∧
      dir.path = "/top" ∧ dir.name = "top" ∧ dir.parent = none :=
  insert_directory_roundtrip dbEmpty ("/top") ("top") ⟨0, "/top", "top", none⟩
    ⟨[⟨0, "/top", "top", none⟩], [], 1⟩ rfl

/-- Counterexample to claim C8 as stated: a matching directory row that
is still referenced — here the root that owns a document — is NOT
deleted; the DELETE fails with a foreign-key store error instead of
succeeding. -/
theorem remove_dir_referenced_row_cex :
    (∃ d ∈ dbC2.directories, d.path = "/r") ∧
    remove_dir ("/r") dbC2 = .error .store := by
  constructor
  · decide
  · rfl

/-- Claim C8 (amended): `remove_file`, and `remove_dir` on a path no row
matches, are delete-if-present — no matching row is a success that
leaves the catalog unchanged, and `remove_file` always succeeds deleting
exactly the matching document rows; but `remove_dir` deletes a matching
directory row only when neither a document nor a surviving subdirectory
references it — deleting a still-referenced row fails with a store
error (foreign-key NO ACTION) and removes nothing. -/
theorem remove_dir_remove_file_fk_semantics :
    (∀ (db : Db) (p : String), (∀ d ∈ db.directories, d.path ≠ p) →
      remove_dir p db = .ok db) ∧
    (∀ (db : Db) (p : String), (∀ d ∈ db.documents, d.path ≠ p) →
      remove_file p db = .ok db) ∧
    (∀ (db : Db) (p : String), ∃ db', remove_file p db = .ok db' ∧
      db'.directories = db.directories ∧
      ∀ d, d ∈ db'.documents ↔ d ∈ db.documents ∧ d.path ≠ p) ∧
    (∀ (db : Db) (p : String),
      (∀ r ∈ db.directories, r.path = p →
        (∀ c ∈ db.directories, c.path ≠ p → c.parent ≠ some r.id) ∧
        (∀ doc ∈ db.documents, doc.directory ≠ r.id)) →
      ∃ db', remove_dir p db = .ok db' ∧ db'.documents = db.documents ∧
        ∀ d, d ∈ db'.directories ↔ d ∈ db.directories ∧ d.path ≠ p) ∧
    (∀ (db : Db) (p : String) (r : Directory), r ∈ db.directories →
      r.path = p →
      ((∃ c ∈ db.directories, c.path ≠ p ∧ c.parent = some r.id) ∨
       (∃ doc ∈ db.documents, doc.directory = r.id)) →
      remove_dir p db = .error .store) := by
  refine ⟨?_, ?_, ?_, ?_, ?_⟩
  · intro db p h
    unfold remove_dir
    have hmatch : db.directories.filter (fun d => d.path == p) = [] := by
      rw [List.filter_eq_nil_iff]
      intro d hd
      simp [h d hd]
    have hall : db.directories.filter (fun d => !(d.path == p)) = db.directories := by
      rw [List.filter_eq_self]
      intro d hd
      simp [h d hd]
    rw [hmatch, hall]
    rfl
  · intro db p h
    unfold remove_file
    have : db.documents.filter (fun d => !(d.path == p)) = db.documents := by
      rw [List.filter_eq_self]
      intro d hd
      simp [h d hd]
    rw [this]
  · intro db p
    refine ⟨_, rfl, rfl, ?_⟩
    intro d
    simp [List.mem_filter]
  · intro db p h
    unfold remove_dir
    have hcond : ((db.directories.filter (fun d => d.path == p)).any (fun r =>
        (db.directories.filter (fun d => !(d.path == p))).any
          (fun c => c.parent == some r.id) ||
        db.documents.any (fun doc => doc.directory == r.id))) = false := by
      rw [List.any_eq_false]
      intro r hr
      rw [List.mem_filter] at hr
      obtain ⟨hrmem, hrpath⟩ := hr
      obtain ⟨hc, hdoc⟩ := h r hrmem (by simpa using hrpath)
      intro hbad
      simp only [Bool.or_eq_true, List.any_eq_true, List.mem_filter] at hbad
      rcases hbad with ⟨c, ⟨hcmem, hcp⟩, hcpar⟩ | ⟨doc, hdmem, hddir⟩
      · exact hc c hcmem (by simpa using hcp) (by simpa using hcpar)
      · exact hdoc doc hdmem (by simpa using hddir)
    rw [hcond]
    refine ⟨_, rfl, rfl, ?_⟩
    intro d
    simp [List.mem_filter]
  · intro db p r hrmem hrp href
    unfold remove_dir
    have hcond : ((db.directories.filter (fun d => d.path == p)).any (fun r =>
        (db.directories.filter (fun d => !(d.path == p))).any
          (fun c => c.parent == some r.id) ||
        db.documents.any (fun doc => doc.directory == r.id))) = true := by
      rw [List.any_eq_true]
      refine ⟨r, ?_, ?_⟩
      · rw [List.mem_filter]
        exact ⟨hrmem, by simp [hrp]⟩
      · simp only [Bool.or_eq_true, List.any_eq_true, List.mem_filter]
        rcases href with ⟨c, hcmem, hcp, hcpar⟩ | ⟨doc, hdmem, hddir⟩
        · exact Or.inl ⟨c, ⟨hcmem, by simp [hcp]⟩, by simp [hcpar]⟩
        · exact Or.inr ⟨doc, hdmem, by simp [hddir]⟩
    rw [hcond]
    rfl

def dbC8 : Db := ⟨[⟨1, "/e", "e", none⟩], [], 2⟩

/-- Witness for the amended claim C8 at concrete catalogs: removing an
absent directory path is a successful no-op; removing a present document
path deletes exactly the matching row; removing an unreferenced
directory row succeeds and deletes it; removing the directory row that
still owns a document fails with the store error. -/
theorem remove_dir_remove_file_fk_semantics_witness :
    remove_dir ("/nope") dbC2 = .ok dbC2 ∧
    (∃ db', remove_file ("/r/a.md") dbC2 = .ok db' ∧
      db'.directories = dbC2.directories ∧
      ∀ d, d ∈ db'.documents ↔ d ∈ dbC2.documents ∧ d.path ≠ "/r/a.md") ∧
    (∃ db', remove_dir ("/e") dbC8 = .ok db' ∧
      db'.documents = dbC8.documents ∧
      ∀ d, d ∈ db'.directories ↔ d ∈ dbC8.directories ∧ d.path ≠ "/e") ∧
    remove_dir ("/r") dbC2 = .error .store :=
  ⟨remove_dir_remove_file_fk_semantics.1 dbC2 ("/nope") (by decide),
   remove_dir_remove_file_fk_semantics.2.2.1 dbC2 ("/r/a.md"),
   remove_dir_remove_file_fk_semantics.2.2.2.1 dbC8 ("/e") (by decide),
   remove_dir_remove_file_fk_semantics.2.2.2.2 dbC2 ("/r")
     ⟨1, "/r", "r", none⟩ (by decide) (by decide) (by decide)⟩

/-! ## The Resolver (src/state.rs, read_file) -/

/-- Filesystem content reader collaborator
(`DocumentData::read_from_disk(id, path)`): loads the document's data for
the given identity and path, failing on an unreadable path. -/
def DocumentData.read_from_disk (env : Env) (id : Nat) (path : String) :
    Except Err DocumentData :=
  if env.diskOk path then .ok ⟨id, path⟩ else .error .io

/-- `DocumentService::read_file`: parse the input as a uuid; on failure
fall back to the custom-id lookup; a missing row in either branch is
`NotFound` with the original input string; a found row is read from
disk under the row's identity. -/
def read_file (env : Env) (db : Db) (id : String) : Except Err DocumentData :=
  match env.parseUuid id with
  | none =>
    match get_doc_id_path_by_custom_id id db with
    | none => .error (.notFound id)
    | some (docId, path) => DocumentData.read_from_disk env docId path
  | some uuid =>
    match get_doc_path uuid db with
    | none => .error (.notFound id)
    | some path => DocumentData.read_from_disk env uuid path

/-- No catalog row matches the input `s` under the branch `read_file`
would take: by primary id when `s` parses as a uuid, by custom id when
it does not. -/
def no_match (env : Env) (db : Db) (s : String) : Prop :=
  (∀ u, env.parseUuid s = some u → get_doc_path u db = none) ∧
  (env.parseUuid s = none → get_doc_id_path_by_custom_id s db = none)

/-- Claim C3: whenever `read_file` finds no matching document — whether
the input parses as a primary identifier or not — it fails with
`NotFound` carrying exactly the original input string. -/
theorem read_file_notFound_original_string (env : Env) (db : Db)
    (s : String) (h : no_match env db s) :
    read_file env db s = .error (.notFound s) := by
  unfold read_file
  cases hp : env.parseUuid s with
  | none => simp [h.2 hp]
  | some u => simp [h.1 u hp]

def envBase : Env :=
  ⟨fun p => some p, fun _ => true, fun _ => none, fun _ => true,
   fun _ => [], fun _ => [], fun _ => false⟩

def envParse : Env :=
  ⟨fun p => some p, fun _ => true, fun _ => some 7, fun _ => true,
   fun _ => [], fun _ => [], fun _ => false⟩

def sMissing : String := "no-such-doc"

/-- Witness for claim C3 in both branches: under a parser that accepts
the input and under one that rejects it, the empty catalog yields
`NotFound` with the very input string. -/
theorem read_file_notFound_original_string_witness :
    read_file envParse dbEmpty sMissing = .error (.notFound sMissing) ∧
    read_file envBase dbEmpty sMissing = .error (.notFound sMissing) := by
  constructor
  · apply read_file_notFound_original_string envParse dbEmpty sMissing
    unfold no_match
    refine ⟨fun _ _ => rfl, fun h => ?_⟩
    exact absurd h (by intro hx; cases hx)
  · apply read_file_notFound_original_string envBase dbEmpty sMissing
    unfold no_match
    refine ⟨fun _ h => ?_, fun _ => rfl⟩
    exact absurd h (by intro hx; cases hx)

/-- Claim C10: in the alias branch, a found custom-id row makes
`read_file` read from disk under the row's stored primary identifier and
path — the alias string itself is never the identity handed to the disk
reader — and on a readable path the returned data carries that row id. -/
theorem read_file_alias_uses_row_identity (env : Env) (db : Db)
    (s : String) (docId : Nat) (p : String)
    (hparse : env.parseUuid s = none)
    (hrow : get_doc_id_path_by_custom_id s db = some (docId, p)) :
    read_file env db s = DocumentData.read_from_disk env docId p ∧
    (env.diskOk p = true → read_file env db s = .ok ⟨docId, p⟩) := by
  have h1 : read_file env db s = DocumentData.read_from_disk env docId p := by
    unfold read_file
    rw [hparse, hrow]
  refine ⟨h1, fun hd => ?_⟩
  rw [h1]
  unfold DocumentData.read_from_disk
  simp [hd]

def sAlpha : String := "alpha"

/-- Witness for claim C10: resolving the alias string finds the row with
primary id 10, and the returned document data carries id 10 and the
row's path, not the alias. -/
theorem read_file_alias_uses_row_identity_witness :
    read_file envBase dbC2 sAlpha = .ok ⟨10, "/r/a.md"⟩ :=
  (read_file_alias_uses_row_identity envBase dbC2 sAlpha 10 ("/r/a.md")
      rfl rfl).2 rfl

/-! ## Hierarchical listing (src/db.rs, list_roots_with_entries) -/

/-- Projection used by the `roots` and `dirs` CTEs:
`SELECT id, parent, name, 'd' AS type, NULL AS title, NULL AS custom_id`. -/
def dir_entry (d : Directory) : DirectoryEntry :=
  ⟨d.id, d.parent, d.name, "d", none, none⟩

/-- Projection used by the `docs` CTE: `SELECT d.id, d.directory AS
parent, d.file_name AS name, 'f' AS type, d.title, d.custom_id`. -/
def doc_entry (doc : Document) : DirectoryEntry :=
  ⟨doc.id, some doc.directory, doc.file_name, "f", doc.title, doc.custom_id⟩

/-- The `roots` CTE: all directories with `parent IS NULL`, projected. -/
def roots_cte (db : Db) : List DirectoryEntry :=
  (db.directories.filter (fun d => d.parent == none)).map dir_entry

/-- The `docs` CTE: documents inner-joined with `roots` on
`directory = roots.id`. -/
def docs_cte (db : Db) : List DirectoryEntry :=
  db.documents.flatMap fun doc =>
    ((roots_cte db).filter (fun r => r.id == doc.directory)).map
      (fun _ => doc_entry doc)

/-- The `dirs` CTE: directories inner-joined with `roots` on
`parent = roots.id`. -/
def dirs_cte (db : Db) : List DirectoryEntry :=
  db.directories.flatMap fun d =>
    ((roots_cte db).filter (fun r => d.parent == some r.id)).map
      (fun _ => dir_entry d)

/-- Sort key of `ORDER BY parent DESC` under PostgreSQL semantics:
descending comparison in which NULL sorts as greater than every value
(NULLS FIRST is the default for DESC). -/
def parent_key (e : DirectoryEntry) : WithTop Nat :=
  match e.parent with
  | none => ⊤
  | some i => (i : WithTop Nat)

/-- `a` may precede `b` under `ORDER BY parent DESC`. -/
def entry_le (a b : DirectoryEntry) : Prop := parent_key b ≤ parent_key a

instance : DecidableRel entry_le :=
  fun a b => inferInstanceAs (Decidable (parent_key b ≤ parent_key a))

instance : IsTotal DirectoryEntry entry_le :=
  ⟨fun a b => le_total (parent_key b) (parent_key a)⟩

instance : IsTrans DirectoryEntry entry_le :=
  ⟨fun _ _ _ h1 h2 => le_trans h2 h1⟩

/-- `SELECT * FROM docs UNION SELECT * FROM dirs UNION SELECT * FROM
roots ORDER BY parent DESC`: union with set semantics (duplicates
removed), then sorted by the parent column descending, NULLs first. -/
def list_roots_with_entries (db : Db) : List DirectoryEntry :=
  List.insertionSort entry_le ((docs_cte db ++ dirs_cte db ++ roots_cte db).dedup)

def dbC6 : Db :=
  ⟨[⟨0, "/r", "r", none⟩, ⟨1, "/r/c", "c", some 0⟩], [], 2⟩

/-- Counterexample to claim C6 as stated: on a catalog with one root and
one direct subdirectory, the root entry (null parent) comes FIRST — the
subdirectory entry with a non-null parent does not precede it, because
`ORDER BY parent DESC` places NULLs first in PostgreSQL. -/
theorem list_roots_with_entries_order_cex :
    list_roots_with_entries dbC6 =
      [⟨0, none, "r", "d", none, none⟩, ⟨1, some 0, "c", "d", none, none⟩] := by
  decide

/-- Membership in the `roots` CTE. -/
theorem mem_roots_cte {db : Db} {e : DirectoryEntry} :
    e ∈ roots_cte db ↔ ∃ d ∈ db.directories, d.parent = none ∧ e = dir_entry d := by
  unfold roots_cte
  simp only [List.mem_map, List.mem_filter, beq_iff_eq]
  constructor
  · rintro ⟨d, ⟨hd, hp⟩, he⟩
    exact ⟨d, hd, hp, he.symm⟩
  · rintro ⟨d, hd, hp, he⟩
    exact ⟨d, ⟨hd, hp⟩, he.symm⟩

/-- Membership in the `docs` CTE. -/
theorem mem_docs_cte {db : Db} {e : DirectoryEntry} :
    e ∈ docs_cte db ↔ ∃ doc ∈ db.documents,
      (∃ d ∈ db.directories, d.parent = none ∧ d.id = doc.directory) ∧
        e = doc_entry doc := by
  unfold docs_cte
  simp only [List.mem_flatMap, List.mem_map, List.mem_filter, beq_iff_eq]
  constructor
  · rintro ⟨doc, hdoc, r, ⟨hr, hid⟩, he⟩
    obtain ⟨d, hd, hpar, hre⟩ := mem_roots_cte.mp hr
    refine ⟨doc, hdoc, ⟨d, hd, hpar, ?_⟩, he.symm⟩
    rw [hre] at hid
    simpa [dir_entry] using hid
  · rintro ⟨doc, hdoc, ⟨d, hd, hpar, hid⟩, he⟩
    refine ⟨doc, hdoc, dir_entry d,
      ⟨mem_roots_cte.mpr ⟨d, hd, hpar, rfl⟩, ?_⟩, he.symm⟩
    simpa [dir_entry] using hid

/-- Membership in the `dirs` CTE. -/
theorem mem_dirs_cte {db : Db} {e : DirectoryEntry} :
    e ∈ dirs_cte db ↔ ∃ c ∈ db.directories,
      (∃ d ∈ db.directories, d.parent = none ∧ c.parent = some d.id) ∧
        e = dir_entry c := by
  unfold dirs_cte
  simp only [List.mem_flatMap, List.mem_map, List.mem_filter, beq_iff_eq]
  constructor
  · rintro ⟨c, hc, r, ⟨hr, hid⟩, he⟩
    obtain ⟨d, hd, hpar, hre⟩ := mem_roots_cte.mp hr
    refine ⟨c, hc, ⟨d, hd, hpar, ?_⟩, he.symm⟩
    rw [hre] at hid
    simpa [dir_entry] using hid
  · rintro ⟨c, hc, ⟨d, hd, hpar, hid⟩, he⟩
    refine ⟨c, hc, dir_entry d,
      ⟨mem_roots_cte.mpr ⟨d, hd, hpar, rfl⟩, ?_⟩, he.symm⟩
    simpa [dir_entry] using hid

/-- The parent sort key is the NULL marker exactly on null parents. -/
theorem parent_key_eq_top {e : DirectoryEntry} :
    parent_key e = ⊤ ↔ e.parent = none := by
  unfold parent_key
  cases e.parent <;> simp

/-- Claim C6 (amended): `list_roots_with_entries` returns exactly every
root directory plus every document and every subdirectory whose parent
is a root, with duplicates removed by set union; but in the returned
sequence every ROOT entry (null parent) precedes every entry with a
non-null parent, because `ORDER BY parent DESC` sorts NULLs first in
PostgreSQL — not the other way round as claimed. -/
theorem list_roots_with_entries_characterization (db : Db) :
    (∀ e, e ∈ list_roots_with_entries db ↔
      ((∃ doc ∈ db.documents,
         (∃ d ∈ db.directories, d.parent = none ∧ d.id = doc.directory) ∧
           e = doc_entry doc) ∨
       (∃ c ∈ db.directories,
         (∃ d ∈ db.directories, d.parent = none ∧ c.parent = some d.id) ∧
           e = dir_entry c) ∨
       (∃ d ∈ db.directories, d.parent = none ∧ e = dir_entry d))) ∧
    (list_roots_with_entries db).Nodup ∧
    (list_roots_with_entries db).Pairwise
      (fun a b => b.parent = none → a.parent = none) := by
  refine ⟨?_, ?_, ?_⟩
  · intro e
    unfold list_roots_with_entries
    rw [List.mem_insertionSort, List.mem_dedup]
    simp only [List.mem_append]
    rw [mem_docs_cte, mem_dirs_cte, mem_roots_cte]
    exact or_assoc
  · unfold list_roots_with_entries
    exact ((List.perm_insertionSort _ _).nodup_iff).mpr (List.nodup_dedup _)
  · have hs := List.sorted_insertionSort entry_le
      ((docs_cte db ++ dirs_cte db ++ roots_cte db).dedup)
    refine hs.imp ?_
    intro a b hab hb
    have htop : parent_key b = ⊤ := parent_key_eq_top.mpr hb
    unfold entry_le at hab
    rw [htop] at hab
    exact parent_key_eq_top.mp (top_le_iff.mp hab)

/-! ## Synchronization Engine (src/state.rs, sync) -/

/-- Modelled from the spec: `trim_roots(full_paths)` is the Catalog
Store extension (missing from src/) that removes every root directory
whose canonical path is not among the surviving canonical paths;
non-root rows and documents are untouched. -/
def trim_roots (fps : List String) (db : Db) : Db :=
  ⟨db.directories.filter (fun d => decide (d.parent ≠ none ∨ d.path ∈ fps)),
   db.documents, db.nextId⟩

/-- Modelled from the spec: `get_all_file_paths` is the Catalog Store
extension (missing from src/) listing every recorded document path. -/
def get_all_file_paths (db : Db) : List String :=
  db.documents.map (fun d => d.path)

/-- Modelled from the spec: `remove_file_by_path` is the Catalog Store
extension (missing from src/) with the delete-if-present semantics of
`remove_file`; the environment says which calls fail at the store
level (connectivity etc.), in which case the catalog is untouched. -/
def remove_file_by_path (env : Env) (p : String) (db : Db) :
    Except Err Unit × Db :=
  if env.removeFileFails p then (.error .store, db)
  else (.ok (), ⟨db.directories, db.documents.filter (fun d => !(d.path == p)), db.nextId⟩)

/-- The `for path in file_paths` loop of `sync`: probe each recorded
path with `tokio::fs::metadata`; on probe failure issue a removal and
continue; a failing removal aborts with its error (`?`), freezing the
catalog in its partial state. -/
def trimDocsLoop (env : Env) (paths : List String) (db : Db) :
    Except Err Unit × Db :=
  match paths with
  | [] => (.ok (), db)
  | p :: rest =>
    if env.metadata p then trimDocsLoop env rest db
    else
      match remove_file_by_path env p db with
      | (.error e, db1) => (.error e, db1)
      | (.ok _, db1) => trimDocsLoop env rest db1

/-- Modelled from the spec: the walker ensures the root directory row
itself exists (by path) before descending. -/
def ensure_root (root alias_ : String) (db : Db) : Except Err Db :=
  match get_dir_by_path root db with
  | some _ => .ok db
  | none =>
    match insert_directory root alias_ none db with
    | .error e => .error e
    | .ok (_, db1) => .ok db1

/-- Modelled from the spec: the walker's directory phase — for every
subdirectory not yet present by path, look up its parent row and call
`insert_directory`; a missing parent row is a store-level failure. -/
def walkDirs (l : List FsDirSpec) (db : Db) : Except Err Unit × Db :=
  match l with
  | [] => (.ok (), db)
  | d :: rest =>
    match get_dir_by_path d.path db with
    | some _ => walkDirs rest db
    | none =>
      match get_dir_by_path d.parentPath db with
      | none => (.error .store, db)
      | some pd =>
        match insert_directory d.path d.name (some pd.id) db with
        | .error e => (.error e, db)
        | .ok (_, db1) => walkDirs rest db1

/-- The document row the walker inserts for a file found on disk, owned
by the directory row with id `dirId`. -/
def mkDoc (f : FsDocSpec) (dirId : Nat) : Document :=
  ⟨f.id, f.file_name, dirId, f.path, f.title, f.custom_id, f.created_at, f.updated_at⟩

/-- The `list_existing` membership check: a document with this file name
is already known in this directory. -/
def docPresent (file_name : String) (dirId : Nat) (db : Db) : Bool :=
  db.documents.any (fun d => d.file_name == file_name && d.directory == dirId)

/-- Modelled from the spec: the walker's document phase — for every
document-bearing file whose name is not yet known in its directory
(checked via `list_existing`), call `insert_document`. -/
def walkDocs (l : List FsDocSpec) (db : Db) : Except Err Unit × Db :=
  match l with
  | [] => (.ok (), db)
  | f :: rest =>
    match get_dir_by_path f.dirPath db with
    | none => (.error .store, db)
    | some dir =>
      if docPresent f.file_name dir.id db then walkDocs rest db
      else
        match insert_document (mkDoc f dir.id) db with
        | .error e => (.error e, db)
        | .ok db1 => walkDocs rest db1

/-- Modelled from the spec: the walker's descent below an ensured root
row — the directory phase followed by the document phase. -/
def prd_after_ensure (env : Env) (root : String) (db1 : Db) :
    Except Err Unit × Db :=
  match walkDirs (env.subdirs root) db1 with
  | (.error e, db2) => (.error e, db2)
  | (.ok _, db2) => walkDocs (env.docs root) db2

/-- Modelled from the spec: `process_root_directory(store, root_path,
alias)` — canonicalize and recursively visit the root, registering the
root row, then every missing subdirectory, then every missing document;
a root that cannot be visited is an error, which aborts the pass. -/
def process_root_directory (env : Env) (db : Db) (path alias_ : String) :
    Except Err Unit × Db :=
  match env.canonicalize path with
  | none => (.error .io, db)
  | some root =>
    match ensure_root root alias_ db with
    | .error e => (.error e, db)
    | .ok db1 => prd_after_ensure env root db1

/-- Outcome of one synchronization pass: the propagated result, the
catalog state it left behind (mutations persist even when the pass
aborts), and the alias/path pairs actually handed to the walker. -/
structure SyncOut where
  res : Except Err Unit
  db : Db
  walked : List (String × String)

/-- The step-5 loop of `sync`: invoke the walker for each alias/path
pair of the configuration snapshot; a walker failure aborts the
remaining pairs (`?`). -/
def walkLoop (env : Env) (directories : List (String × String)) (db : Db) :
    SyncOut :=
  match directories with
  | [] => ⟨.ok (), db, []⟩
  | (alias_, path) :: rest =>
    match process_root_directory env db path alias_ with
    | (.error e, db1) => ⟨.error e, db1, [(alias_, path)]⟩
    | (.ok _, db1) =>
      let out := walkLoop env rest db1
      ⟨out.res, out.db, (alias_, path) :: out.walked⟩

/-- `DocumentService::sync`: snapshot the configuration, canonicalize
the configured paths keeping only the successes (`filter_map(Result::ok)`),
trim roots against the canonical list, trim stale documents, then walk
every configured alias/path pair. -/
def sync (env : Env) (directories : List (String × String)) (db : Db) :
    SyncOut :=
  match trimDocsLoop env
      (get_all_file_paths
        (trim_roots ((directories.map Prod.snd).filterMap env.canonicalize) db))
      (trim_roots ((directories.map Prod.snd).filterMap env.canonicalize) db) with
  | (.error e, db2) => ⟨.error e, db2, []⟩
  | (.ok _, db2) => walkLoop env directories db2

/-! ## Claims C1 and C4 about sync's control flow -/

def envC1 : Env :=
  ⟨fun _ => none, fun _ => true, fun _ => none, fun _ => true,
   fun _ => [], fun _ => [], fun _ => false⟩

def pGone : String := "/gone"

def aliasA : String := "a"

/-- Counterexample to claim C1 as stated: a configured pair whose path
fails canonicalization is NOT excluded from the whole pass — the
discovery loop still hands exactly that pair to the filesystem walker
(the exclusion applies only to the root-trimming step). -/
theorem sync_walks_failed_canonicalization_cex :
    envC1.canonicalize pGone = none ∧
    (sync envC1 [(aliasA, pGone)] dbEmpty).walked = [(aliasA, pGone)] := by
  constructor
  · rfl
  · rfl

/-- Claim C1 (amended): a root path that fails canonicalization is
excluded only from the root-trimming step; the discovery loop invokes
the filesystem walker for every configured alias/path pair it reaches,
whether or not that pair's path canonicalized — here, whenever the
trim phase succeeds, the first configured pair is always walked. -/
theorem sync_walker_invoked_regardless_of_canonicalization
    (env : Env) (a p : String) (rest : List (String × String)) (db : Db)
    (htrim : (trimDocsLoop env
      (get_all_file_paths
        (trim_roots (((((a, p) :: rest)).map Prod.snd).filterMap env.canonicalize) db))
      (trim_roots (((((a, p) :: rest)).map Prod.snd).filterMap env.canonicalize) db)).1
        = .ok ()) :
    (sync env ((a, p) :: rest) db).walked.head? = some (a, p) := by
  unfold sync
  rcases htl : trimDocsLoop env
      (get_all_file_paths
        (trim_roots (((((a, p) :: rest)).map Prod.snd).filterMap env.canonicalize) db))
      (trim_roots (((((a, p) :: rest)).map Prod.snd).filterMap env.canonicalize) db)
    with ⟨r, db2⟩
  rw [htl] at htrim
  cases r with
  | error e => exact absurd htrim (by intro hx; cases hx)
  | ok u =>
    unfold walkLoop
    rcases process_root_directory env db2 p a with ⟨rw0, db3⟩
    cases rw0 <;> rfl

/-- Claim C4: in the trim-stale-documents step a failed probe issues a
removal for that document's record and the scan continues; a removal
that itself fails at the store level aborts the whole pass immediately
with that error — the catalog keeps only the removals already done, the
remaining paths are not processed, and the discovery step never runs. -/
theorem sync_trim_stale_semantics :
    (∀ (env : Env) (p : String) (rest : List String) (db : Db),
      env.metadata p = false → env.removeFileFails p = false →
      trimDocsLoop env (p :: rest) db =
        trimDocsLoop env rest
          ⟨db.directories, db.documents.filter (fun d => !(d.path == p)), db.nextId⟩) ∧
    (∀ (env : Env) (p : String) (rest : List String) (db : Db),
      env.metadata p = false → env.removeFileFails p = true →
      trimDocsLoop env (p :: rest) db = (.error .store, db)) ∧
    (∀ (env : Env) (cfg : List (String × String)) (db : Db) (e : Err) (dbx : Db),
      trimDocsLoop env
        (get_all_file_paths
          (trim_roots ((cfg.map Prod.snd).filterMap env.canonicalize) db))
        (trim_roots ((cfg.map Prod.snd).filterMap env.canonicalize) db)
          = (.error e, dbx) →
      sync env cfg db = ⟨.error e, dbx, []⟩) := by
  refine ⟨?_, ?_, ?_⟩
  · intro env p rest db hm hf
    conv_lhs => rw [trimDocsLoop]
    rw [hm, remove_file_by_path, hf]
    simp
  · intro env p rest db hm hf
    conv_lhs => rw [trimDocsLoop]
    rw [hm, remove_file_by_path, hf]
    simp
  · intro env cfg db e dbx h
    unfold sync
    rw [h]

/-- Witness for the amended claim C1: with an empty catalog (so the trim
phase trivially succeeds) and a configuration whose only path fails
canonicalization, the walker is still invoked for that first pair. -/
theorem sync_walker_invoked_regardless_of_canonicalization_witness :
    (sync envC1 [(aliasA, pGone)] dbEmpty).walked.head? = some (aliasA, pGone) :=
  sync_walker_invoked_regardless_of_canonicalization envC1 aliasA pGone [] dbEmpty rfl

def envProbe : Env :=
  ⟨fun p => some p, fun _ => false, fun _ => none, fun _ => true,
   fun _ => [], fun _ => [], fun _ => false⟩

def envProbeRemoveFail : Env :=
  ⟨fun p => some p, fun _ => false, fun _ => none, fun _ => true,
   fun _ => [], fun _ => [], fun _ => true⟩

def sDocPath : String := "/r/a.md"

/-- Witness for claim C4 at concrete inputs: a failed probe with a
working store removes the record and continues; a failed probe whose
removal fails at the store aborts with that error and an untouched
catalog; and a trim-phase error makes the whole pass return it with no
walker invocations. -/
theorem sync_trim_stale_semantics_witness :
    (trimDocsLoop envProbe (sDocPath :: []) dbC2 =
      trimDocsLoop envProbe []
        ⟨dbC2.directories, dbC2.documents.filter (fun d => !(d.path == sDocPath)), dbC2.nextId⟩) ∧
    (trimDocsLoop envProbeRemoveFail (sDocPath :: []) dbC2 = (.error .store, dbC2)) ∧
    (sync envProbeRemoveFail [] dbC2 =
      ⟨.error .store, ⟨[], dbC2.documents, dbC2.nextId⟩, []⟩) :=
  ⟨sync_trim_stale_semantics.1 envProbe sDocPath [] dbC2 rfl rfl,
   sync_trim_stale_semantics.2.1 envProbeRemoveFail sDocPath [] dbC2 rfl rfl,
   sync_trim_stale_semantics.2.2 envProbeRemoveFail [] dbC2 .store
     ⟨[], dbC2.documents, dbC2.nextId⟩ rfl⟩

/-! ## Sync idempotence (claim C5): infrastructure -/

/-- `db2` extends `db1`: the walker only ever appends rows, so every
state later in a pass extends every earlier one row-for-row. -/
def DbExt (db1 db2 : Db) : Prop :=
  (∃ ds, db2.directories = db1.directories ++ ds) ∧
  (∃ fs, db2.documents = db1.documents ++ fs)

theorem DbExt.rfl (db : Db) : DbExt db db :=
  ⟨⟨[], by simp⟩, ⟨[], by simp⟩⟩

theorem DbExt.trans {db1 db2 db3 : Db} (h1 : DbExt db1 db2)
    (h2 : DbExt db2 db3) : DbExt db1 db3 := by
  obtain ⟨⟨ds1, hd1⟩, ⟨fs1, hf1⟩⟩ := h1
  obtain ⟨⟨ds2, hd2⟩, ⟨fs2, hf2⟩⟩ := h2
  exact ⟨⟨ds1 ++ ds2, by rw [hd2, hd1, List.append_assoc]⟩,
         ⟨fs1 ++ fs2, by rw [hf2, hf1, List.append_assoc]⟩⟩

/-- A successful path lookup survives any extension of the catalog. -/
theorem get_dir_by_path_stable {p : String} {db db' : Db}
    (h : DbExt db db') {d : Directory}
    (hf : get_dir_by_path p db = some d) :
    get_dir_by_path p db' = some d := by
  obtain ⟨⟨ds, hd⟩, -⟩ := h
  unfold get_dir_by_path at hf ⊢
  rw [hd, List.find?_append, hf]
  rfl

/-- A present path lookup survives any extension of the catalog. -/
theorem get_dir_by_path_isSome_stable {p : String} {db db' : Db}
    (h : DbExt db db')
    (hf : (get_dir_by_path p db).isSome = true) :
    (get_dir_by_path p db').isSome = true := by
  obtain ⟨d, hd⟩ := Option.isSome_iff_exists.mp hf
  rw [get_dir_by_path_stable h hd]
  rfl

/-- The `list_existing` membership check is monotone in the catalog. -/
theorem docPresent_mono {fn : String} {dirId : Nat} {db db' : Db}
    (h : DbExt db db') (hp : docPresent fn dirId db = true) :
    docPresent fn dirId db' = true := by
  obtain ⟨-, ⟨fs, hf⟩⟩ := h
  unfold docPresent at hp ⊢
  rw [hf, List.any_append, hp]
  rfl

/-- The `ON CONFLICT` condition is monotone in the catalog. -/
theorem doc_conflict_mono {doc : Document} {db db' : Db}
    (h : DbExt db db') (hp : doc_conflict doc db = true) :
    doc_conflict doc db' = true := by
  obtain ⟨-, ⟨fs, hf⟩⟩ := h
  unfold doc_conflict at hp ⊢
  rw [hf, List.any_append, hp]
  rfl

/-- A conflicting document insert is a successful no-op. -/
theorem insert_document_of_conflict {doc : Document} {db : Db}
    (h : doc_conflict doc db = true) :
    insert_document doc db = .ok db := by
  unfold insert_document
  rw [h]
  rfl

/-- Ensuring the root row always succeeds: it is skipped when present
and inserted (never conflicting) when absent; the result extends the
input, has the root present, and shares its documents. -/
theorem ensure_root_spec (root a : String) (db : Db) :
    ∃ db1, ensure_root root a db = .ok db1 ∧ DbExt db db1 ∧
      (get_dir_by_path root db1).isSome = true ∧
      db1.documents = db.documents := by
  unfold ensure_root
  cases hdir : get_dir_by_path root db with
  | some d =>
    refine ⟨db, rfl, DbExt.rfl db, ?_, rfl⟩
    rw [hdir]
    rfl
  | none =>
    have hany : (db.directories.any (fun d => d.path == root)) = false := by
      rw [List.any_eq_false]
      intro x hx
      unfold get_dir_by_path at hdir
      exact List.find?_eq_none.mp hdir x hx
    have hins : insert_directory root a none db =
        .ok (⟨db.nextId, root, a, none⟩,
          ⟨db.directories ++ [⟨db.nextId, root, a, none⟩], db.documents,
            db.nextId + 1⟩) := by
      unfold insert_directory
      rw [hany]
      rfl
    rw [hins]
    refine ⟨_, rfl, ⟨⟨_, rfl⟩, ⟨[], by simp⟩⟩, ?_, rfl⟩
    unfold get_dir_by_path at hdir ⊢
    rw [List.find?_append, hdir]
    simp

/-- Ensuring a root that is already present changes nothing. -/
theorem ensure_root_present (root a : String) (db : Db)
    (h : (get_dir_by_path root db).isSome = true) :
    ensure_root root a db = .ok db := by
  unfold ensure_root
  obtain ⟨d, hd⟩ := Option.isSome_iff_exists.mp h
  rw [hd]

/-- Shape of a successful directory insert: the new row is appended,
documents are untouched, and the row carries the requested path. -/
theorem insert_directory_ok_shape {p n : String} {par : Option Nat}
    {db : Db} {dd : Directory} {db1 : Db}
    (h : insert_directory p n par db = .ok (dd, db1)) :
    db1.directories = db.directories ++ [dd] ∧
    db1.documents = db.documents ∧ dd.path = p ∧ dd.parent = par := by
  unfold insert_directory at h
  split at h
  · cases h
  · split at h
    next hpar =>
      injection h with h1
      injection h1 with ha hb
      subst ha
      subst hb
      exact ⟨rfl, rfl, rfl, rfl⟩
    next pid hpar =>
      split at h
      · injection h with h1
        injection h1 with ha hb
        subst ha
        subst hb
        exact ⟨rfl, rfl, rfl, rfl⟩
      · cases h

/-- A successful directory insert extends the catalog. -/
theorem insert_directory_ok_ext {p n : String} {par : Option Nat}
    {db : Db} {dd : Directory} {db1 : Db}
    (h : insert_directory p n par db = .ok (dd, db1)) : DbExt db db1 := by
  obtain ⟨h1, h2, -⟩ := insert_directory_ok_shape h
  exact ⟨⟨[dd], h1⟩, ⟨[], by simp [h2]⟩⟩

/-- The walker's directory phase only appends directory rows and never
touches documents. -/
theorem walkDirs_ext : ∀ (l : List FsDirSpec) (db : Db)
    (r : Except Err Unit) (db' : Db),
    walkDirs l db = (r, db') → DbExt db db' ∧ db'.documents = db.documents := by
  intro l
  induction l with
  | nil =>
    intro db r db' h
    rw [walkDirs] at h
    injection h with h1 h2
    subst h2
    exact ⟨DbExt.rfl db, rfl⟩
  | cons d rest ih =>
    intro db r db' h
    rw [walkDirs] at h
    split at h
    next x hdir =>
      exact ih db r db' h
    next hdir =>
      split at h
      next hp =>
        injection h with h1 h2
        subst h2
        exact ⟨DbExt.rfl db, rfl⟩
      next pd hp =>
        split at h
        next e hins =>
          injection h with h1 h2
          subst h2
          exact ⟨DbExt.rfl db, rfl⟩
        next dd db1 hins =>
          obtain ⟨hext2, hdocs2⟩ := ih db1 r db' h
          obtain ⟨-, hdocs1, -⟩ := insert_directory_ok_shape hins
          exact ⟨(insert_directory_ok_ext hins).trans hext2,
            by rw [hdocs2, hdocs1]⟩

/-- After a successful directory phase every listed subdirectory is
present by path. -/
theorem walkDirs_ok_present : ∀ (l : List FsDirSpec) (db : Db) (u : Unit)
    (db' : Db), walkDirs l db = (.ok u, db') →
    ∀ d ∈ l, (get_dir_by_path d.path db').isSome = true := by
  intro l
  induction l with
  | nil =>
    intro db u db' h d hd
    cases hd
  | cons d0 rest ih =>
    intro db u db' h d hd
    rw [walkDirs] at h
    split at h
    next x hdir =>
      rcases List.mem_cons.mp hd with heq | hmem
      · subst heq
        have hext := (walkDirs_ext rest db _ db' h).1
        exact get_dir_by_path_isSome_stable hext (by rw [hdir]; rfl)
      · exact ih db u db' h d hmem
    next hdir =>
      split at h
      next hp =>
        injection h with h1 h2
        cases h1
      next pd hp =>
        split at h
        next e hins =>
          injection h with h1 h2
          cases h1
        next dd db1 hins =>
          obtain ⟨hdirs1, hdocs1, hpath, -⟩ := insert_directory_ok_shape hins
          rcases List.mem_cons.mp hd with heq | hmem
          · subst heq
            have hext := (walkDirs_ext rest db1 _ db' h).1
            apply get_dir_by_path_isSome_stable hext
            unfold get_dir_by_path at hdir ⊢
            rw [hdirs1, List.find?_append, hdir]
            simp [hpath]
          · exact ih db1 u db' h d hmem

/-- The directory phase is a no-op when every listed subdirectory is
already present by path. -/
theorem walkDirs_noop : ∀ (l : List FsDirSpec) (db : Db),
    (∀ d ∈ l, (get_dir_by_path d.path db).isSome = true) →
    walkDirs l db = (.ok (), db) := by
  intro l
  induction l with
  | nil =>
    intro db h
    rfl
  | cons d rest ih =>
    intro db h
    rw [walkDirs]
    obtain ⟨x, hx⟩ := Option.isSome_iff_exists.mp (h d (by simp))
    rw [hx]
    exact ih db (fun d2 hd2 => h d2 (List.mem_cons_of_mem _ hd2))

/-- Rerunning a failed directory phase from its own output state fails
identically and changes nothing. -/
theorem walkDirs_err_rerun : ∀ (l : List FsDirSpec) (db : Db) (e : Err)
    (db' : Db), walkDirs l db = (.error e, db') →
    walkDirs l db' = (.error e, db') := by
  intro l
  induction l with
  | nil =>
    intro db e db' h
    rw [walkDirs] at h
    injection h with h1 h2
    cases h1
  | cons d rest ih =>
    intro db e db' h
    rw [walkDirs] at h
    split at h
    next x hdir =>
      have hext := (walkDirs_ext rest db _ db' h).1
      rw [walkDirs, get_dir_by_path_stable hext hdir]
      exact ih db e db' h
    next hdir =>
      split at h
      next hp =>
        injection h with h1 h2
        injection h1 with h3
        subst h3
        subst h2
        simp only [walkDirs, hdir, hp]
      next pd hp =>
        split at h
        next e2 hins =>
          injection h with h1 h2
          injection h1 with h3
          subst h3
          subst h2
          simp only [walkDirs, hdir, hp, hins]
        next dd db1 hins =>
          obtain ⟨hdirs1, hdocs1, hpath, -⟩ := insert_directory_ok_shape hins
          have hextr := (walkDirs_ext rest db1 _ db' h).1
          have hpres : (get_dir_by_path d.path db').isSome = true := by
            apply get_dir_by_path_isSome_stable hextr
            unfold get_dir_by_path at hdir ⊢
            rw [hdirs1, List.find?_append, hdir]
            simp [hpath]
          obtain ⟨y, hy⟩ := Option.isSome_iff_exists.mp hpres
          rw [walkDirs, hy]
          exact ih db1 e db' h

/-- A successful document insert either hit a conflict (no-op) or
appended the row. -/
theorem insert_document_cases {doc : Document} {db db1 : Db}
    (h : insert_document doc db = .ok db1) :
    (doc_conflict doc db = true ∧ db1 = db) ∨
    (doc_conflict doc db = false ∧
      db1 = ⟨db.directories, db.documents ++ [doc], db.nextId⟩) := by
  unfold insert_document at h
  split at h
  next hc =>
    injection h with h1
    subst h1
    exact Or.inl ⟨hc, rfl⟩
  next hc =>
    split at h
    next hk =>
      injection h with h1
      subst h1
      exact Or.inr ⟨by simpa using hc, rfl⟩
    next hk =>
      cases h

/-- The walker's document phase only appends document rows; directories
and the id generator are untouched. -/
theorem walkDocs_ext : ∀ (l : List FsDocSpec) (db : Db)
    (r : Except Err Unit) (db' : Db),
    walkDocs l db = (r, db') → DbExt db db' ∧
      db'.directories = db.directories ∧ db'.nextId = db.nextId := by
  intro l
  induction l with
  | nil =>
    intro db r db' h
    rw [walkDocs] at h
    injection h with h1 h2
    subst h2
    exact ⟨DbExt.rfl db, rfl, rfl⟩
  | cons f rest ih =>
    intro db r db' h
    rw [walkDocs] at h
    split at h
    next hdir =>
      injection h with h1 h2
      subst h2
      exact ⟨DbExt.rfl db, rfl, rfl⟩
    next dir hdir =>
      split at h
      next hpres =>
        exact ih db r db' h
      next hpres =>
        split at h
        next e hins =>
          injection h with h1 h2
          subst h2
          exact ⟨DbExt.rfl db, rfl, rfl⟩
        next db1 hins =>
          obtain ⟨hext2, hdirs2, hnext2⟩ := ih db1 r db' h
          rcases insert_document_cases hins with ⟨hconf, heq⟩ | ⟨hnc, heq⟩
          · subst heq
            exact ⟨hext2, hdirs2, hnext2⟩
          · subst heq
            exact ⟨DbExt.trans ⟨⟨[], by simp⟩, ⟨[mkDoc f dir.id], rfl⟩⟩ hext2,
              by rw [hdirs2], by rw [hnext2]⟩

/-- Unfolding of the document phase at a file whose directory row is
missing. -/
theorem walkDocs_cons_none {f : FsDocSpec} {rest : List FsDocSpec}
    {db : Db} (hdir : get_dir_by_path f.dirPath db = none) :
    walkDocs (f :: rest) db = (.error .store, db) := by
  rw [walkDocs, hdir]

/-- Unfolding of the document phase at a file whose directory row is
found. -/
theorem walkDocs_cons_some {f : FsDocSpec} {rest : List FsDocSpec}
    {db : Db} {dir : Directory}
    (hdir : get_dir_by_path f.dirPath db = some dir) :
    walkDocs (f :: rest) db =
      (if docPresent f.file_name dir.id db = true then walkDocs rest db
       else
         match insert_document (mkDoc f dir.id) db with
         | .error e => (.error e, db)
         | .ok db1 => walkDocs rest db1) := by
  rw [walkDocs, hdir]

/-- After a successful document phase from `db`, rerunning it on any
extension of its output is a successful no-op. -/
theorem walkDocs_ok_stable : ∀ (l : List FsDocSpec) (db db' X : Db)
    (u : Unit), walkDocs l db = (.ok u, db') → DbExt db' X →
    walkDocs l X = (.ok (), X) := by
  intro l
  induction l with
  | nil =>
    intro db db' X u h hX
    rfl
  | cons f rest ih =>
    intro db db' X u h hX
    have horig := h
    rw [walkDocs] at h
    split at h
    next hdir =>
      injection h with h1 h2
      cases h1
    next dir hdir =>
      have hdb' : DbExt db db' := (walkDocs_ext (f :: rest) db _ db' horig).1
      have hdbX : DbExt db X := hdb'.trans hX
      have hdirX : get_dir_by_path f.dirPath X = some dir :=
        get_dir_by_path_stable hdbX hdir
      rw [walkDocs_cons_some hdirX]
      split at h
      next hpres =>
        rw [if_pos (docPresent_mono hdbX hpres)]
        exact ih db db' X u h hX
      next hpres =>
        split at h
        next e hins =>
          injection h with h1 h2
          cases h1
        next db1 hins =>
          rcases insert_document_cases hins with ⟨hconf, heq⟩ | ⟨hnc, heq⟩
          · subst db1
            by_cases hpX : docPresent f.file_name dir.id X = true
            · rw [if_pos hpX]
              exact ih db db' X u h hX
            · rw [if_neg hpX]
              rw [insert_document_of_conflict (doc_conflict_mono hdbX hconf)]
              exact ih db db' X u h hX
          · have hp1 : docPresent f.file_name dir.id db1 = true := by
              subst db1
              simp [docPresent, List.any_append, mkDoc]
            have hext1 : DbExt db1 db' := (walkDocs_ext rest db1 _ db' h).1
            rw [if_pos (docPresent_mono (hext1.trans hX) hp1)]
            exact ih db1 db' X u h hX

/-- Rerunning a failed document phase from its own output state fails
identically and changes nothing. -/
theorem walkDocs_err_rerun : ∀ (l : List FsDocSpec) (db : Db) (e : Err)
    (db' : Db), walkDocs l db = (.error e, db') →
    walkDocs l db' = (.error e, db') := by
  intro l
  induction l with
  | nil =>
    intro db e db' h
    rw [walkDocs] at h
    injection h with h1 h2
    cases h1
  | cons f rest ih =>
    intro db e db' h
    have horig := h
    rw [walkDocs] at h
    split at h
    next hdir =>
      injection h with h1 h2
      injection h1 with h3
      subst h3
      subst h2
      exact walkDocs_cons_none hdir
    next dir hdir =>
      have hdirseq : db'.directories = db.directories :=
        (walkDocs_ext (f :: rest) db _ db' horig).2.1
      have hdirX : get_dir_by_path f.dirPath db' = some dir := by
        unfold get_dir_by_path at hdir ⊢
        rw [hdirseq]
        exact hdir
      split at h
      next hpres =>
        have hext := (walkDocs_ext rest db _ db' h).1
        rw [walkDocs_cons_some hdirX, if_pos (docPresent_mono hext hpres)]
        exact ih db e db' h
      next hpres =>
        split at h
        next e2 hins =>
          injection h with h1 h2
          injection h1 with h3
          subst h3
          subst h2
          rw [walkDocs_cons_some hdir, if_neg hpres, hins]
        next db1 hins =>
          rcases insert_document_cases hins with ⟨hconf, heq⟩ | ⟨hnc, heq⟩
          · subst db1
            by_cases hpX : docPresent f.file_name dir.id db' = true
            · rw [walkDocs_cons_some hdirX, if_pos hpX]
              exact ih db e db' h
            · have hextr := (walkDocs_ext rest db _ db' h).1
              rw [walkDocs_cons_some hdirX, if_neg hpX,
                insert_document_of_conflict (doc_conflict_mono hextr hconf)]
              exact ih db e db' h
          · have hp1 : docPresent f.file_name dir.id db1 = true := by
              subst db1
              simp [docPresent, List.any_append, mkDoc]
            have hextr := (walkDocs_ext rest db1 _ db' h).1
            rw [walkDocs_cons_some hdirX, if_pos (docPresent_mono hextr hp1)]
            exact ih db1 e db' h

/-- Unfolding of the walker descent when the directory phase
succeeds. -/
theorem prd_after_ensure_ok {env : Env} {root : String} {db1 : Db}
    {u : Unit} {db2 : Db}
    (hwd : walkDirs (env.subdirs root) db1 = (.ok u, db2)) :
    prd_after_ensure env root db1 = walkDocs (env.docs root) db2 := by
  unfold prd_after_ensure
  rw [hwd]

/-- Unfolding of the walker descent when the directory phase fails. -/
theorem prd_after_ensure_err {env : Env} {root : String} {db1 : Db}
    {e : Err} {db2 : Db}
    (hwd : walkDirs (env.subdirs root) db1 = (.error e, db2)) :
    prd_after_ensure env root db1 = (.error e, db2) := by
  unfold prd_after_ensure
  rw [hwd]

/-- The walker descent only appends rows. -/
theorem prd_after_ensure_ext {env : Env} {root : String} {db1 : Db}
    {r : Except Err Unit} {db' : Db}
    (h : prd_after_ensure env root db1 = (r, db')) : DbExt db1 db' := by
  unfold prd_after_ensure at h
  split at h
  next e db2 hwd =>
    injection h with h1 h2
    subst h2
    exact (walkDirs_ext _ db1 _ db2 hwd).1
  next u db2 hwd =>
    exact ((walkDirs_ext _ db1 _ db2 hwd).1).trans ((walkDocs_ext _ db2 _ db' h).1)

/-- Unfolding of the walker once the root is canonicalized and its row
ensured. -/
theorem prd_step {env : Env} {db db1 : Db} {p a root : String}
    (hc : env.canonicalize p = some root)
    (hens : ensure_root root a db = .ok db1) :
    process_root_directory env db p a = prd_after_ensure env root db1 := by
  unfold process_root_directory
  rw [hc]
  show (match ensure_root root a db with
        | .error e => (.error e, db)
        | .ok db1 => prd_after_ensure env root db1) = prd_after_ensure env root db1
  rw [hens]

/-- The walker only appends rows. -/
theorem prd_ext {env : Env} {db : Db} {p a : String}
    {r : Except Err Unit} {db' : Db}
    (h : process_root_directory env db p a = (r, db')) : DbExt db db' := by
  unfold process_root_directory at h
  split at h
  next hc =>
    injection h with h1 h2
    subst h2
    exact DbExt.rfl db
  next root hc =>
    split at h
    next e hens =>
      obtain ⟨db1, hens2, -, -, -⟩ := ensure_root_spec root a db
      rw [hens2] at hens
      cases hens
    next db1 hens =>
      obtain ⟨db1x, hens2, hext1, -, -⟩ := ensure_root_spec root a db
      rw [hens2] at hens
      injection hens with hq
      subst hq
      exact hext1.trans (prd_after_ensure_ext h)

/-- After a successful walk from `db`, rerunning the walker on any
extension of its output is a successful no-op. -/
theorem prd_ok_stable {env : Env} {db db' X : Db} {p a : String} {u : Unit}
    (h : process_root_directory env db p a = (.ok u, db')) (hX : DbExt db' X) :
    process_root_directory env X p a = (.ok (), X) := by
  unfold process_root_directory at h
  split at h
  next hc =>
    injection h with h1 h2
    cases h1
  next root hc =>
    split at h
    next e hens =>
      obtain ⟨db1, hens2, -, -, -⟩ := ensure_root_spec root a db
      rw [hens2] at hens
      cases hens
    next db1 hens =>
      obtain ⟨db1x, hens2, hext1, hroot1, -⟩ := ensure_root_spec root a db
      rw [hens2] at hens
      injection hens with hq
      subst hq
      unfold prd_after_ensure at h
      split at h
      next e db2 hwd =>
        injection h with h1 h2
        cases h1
      next u2 db2 hwd =>
        have hext2 := (walkDirs_ext _ _ _ _ hwd).1
        have hext3 := (walkDocs_ext _ _ _ _ h).1
        have hrootX : (get_dir_by_path root X).isSome = true :=
          get_dir_by_path_isSome_stable (hext2.trans (hext3.trans hX)) hroot1
        rw [prd_step hc (ensure_root_present root a X hrootX)]
        rw [prd_after_ensure_ok (walkDirs_noop _ X (fun d hd =>
          get_dir_by_path_isSome_stable (hext3.trans hX)
            (walkDirs_ok_present _ _ _ _ hwd d hd)))]
        exact walkDocs_ok_stable _ db2 db' X u h hX

/-- Rerunning a failed walk from its own output state fails identically
and changes nothing. -/
theorem prd_err_rerun {env : Env} {db : Db} {p a : String} {e : Err}
    {db' : Db}
    (h : process_root_directory env db p a = (.error e, db')) :
    process_root_directory env db' p a = (.error e, db') := by
  unfold process_root_directory at h
  split at h
  next hc =>
    injection h with h1 h2
    injection h1 with h3
    subst h3
    subst h2
    unfold process_root_directory
    rw [hc]
  next root hc =>
    split at h
    next e2 hens =>
      obtain ⟨db1, hens2, -, -, -⟩ := ensure_root_spec root a db
      rw [hens2] at hens
      cases hens
    next db1 hens =>
      obtain ⟨db1x, hens2, hext1, hroot1, -⟩ := ensure_root_spec root a db
      rw [hens2] at hens
      injection hens with hq
      subst hq
      unfold prd_after_ensure at h
      split at h
      next e2 db2 hwd =>
        injection h with h1 h2
        injection h1 with h3
        subst h3
        subst h2
        have hext2 := (walkDirs_ext _ _ _ _ hwd).1
        have hrootX : (get_dir_by_path root db2).isSome = true :=
          get_dir_by_path_isSome_stable hext2 hroot1
        rw [prd_step hc (ensure_root_present root a db2 hrootX)]
        exact prd_after_ensure_err (walkDirs_err_rerun _ _ _ _ hwd)
      next u2 db2 hwd =>
        have hext2 := (walkDirs_ext _ _ _ _ hwd).1
        have hext3 := (walkDocs_ext _ _ _ _ h).1
        have hrootX : (get_dir_by_path root db').isSome = true :=
          get_dir_by_path_isSome_stable (hext2.trans hext3) hroot1
        rw [prd_step hc (ensure_root_present root a db' hrootX)]
        rw [prd_after_ensure_ok (walkDirs_noop _ db' (fun d hd =>
          get_dir_by_path_isSome_stable hext3
            (walkDirs_ok_present _ _ _ _ hwd d hd)))]
        exact walkDocs_err_rerun _ db2 e db' h

/-- The discovery loop only appends rows. -/
theorem walkLoop_ext : ∀ (cfg : List (String × String)) (env : Env)
    (db : Db), DbExt db (walkLoop env cfg db).db := by
  intro cfg
  induction cfg with
  | nil =>
    intro env db
    exact DbExt.rfl db
  | cons pr rest ih =>
    intro env db
    obtain ⟨a, p⟩ := pr
    rw [walkLoop]
    cases hw : process_root_directory env db p a with
    | mk r db1 =>
      cases r with
      | error e =>
        exact prd_ext hw
      | ok u =>
        exact (prd_ext hw).trans (ih env db1)

/-- Rerunning the discovery loop from its own output state reproduces
its result, walks the same pairs, and changes nothing. -/
theorem walkLoop_rerun : ∀ (cfg : List (String × String)) (env : Env)
    (db : Db) (out : SyncOut),
    walkLoop env cfg db = out → walkLoop env cfg out.db = out := by
  intro cfg
  induction cfg with
  | nil =>
    intro env db out h
    rw [walkLoop] at h
    subst h
    rfl
  | cons pr rest ih =>
    intro env db out h
    obtain ⟨a, p⟩ := pr
    rw [walkLoop] at h
    split at h
    next e db1 hw =>
      subst h
      rw [walkLoop]
      rw [prd_err_rerun hw]
    next u db1 hw =>
      subst h
      rw [walkLoop]
      rw [prd_ok_stable hw (walkLoop_ext rest env db1)]
      have hr := ih env db1 (walkLoop env rest db1) rfl
      show (let out := walkLoop env rest (walkLoop env rest db1).db
            ({ res := out.res, db := out.db, walked := (a, p) :: out.walked } : SyncOut)) =
        (let out := walkLoop env rest db1
         ({ res := out.res, db := out.db, walked := (a, p) :: out.walked } : SyncOut))
      rw [hr]

/-- Every root row of the catalog survives a root trim against `fps`. -/
def RootsOk (fps : List String) (db : Db) : Prop :=
  ∀ d ∈ db.directories, d.parent = none → d.path ∈ fps

/-- Every recorded document path still passes the filesystem probe. -/
def DocsOk (env : Env) (db : Db) : Prop :=
  ∀ doc ∈ db.documents, env.metadata doc.path = true

theorem rootsOk_of_dirs_eq {fps : List String} {db db' : Db}
    (h : db'.directories = db.directories) (hro : RootsOk fps db) :
    RootsOk fps db' := by
  intro d hd
  rw [h] at hd
  exact hro d hd

theorem docsOk_of_docs_eq {env : Env} {db db' : Db}
    (h : db'.documents = db.documents) (hdo : DocsOk env db) :
    DocsOk env db' := by
  intro doc hdoc
  rw [h] at hdoc
  exact hdo doc hdoc

/-- Trimming roots establishes the root invariant. -/
theorem trim_roots_rootsOk (fps : List String) (db : Db) :
    RootsOk fps (trim_roots fps db) := by
  intro d hd hpar
  unfold trim_roots at hd
  simp only [List.mem_filter, decide_eq_true_eq] at hd
  rcases hd.2 with hne | hin
  · exact absurd hpar hne
  · exact hin

/-- Trimming roots is a no-op once the root invariant holds. -/
theorem trim_roots_noop {fps : List String} {db : Db}
    (h : RootsOk fps db) : trim_roots fps db = db := by
  unfold trim_roots
  cases db with
  | mk ds docs n =>
    simp only [Db.mk.injEq, and_true]
    rw [List.filter_eq_self]
    intro d hd
    simp only [decide_eq_true_eq]
    by_cases hp : d.parent = none
    · exact Or.inr (h d hd hp)
    · exact Or.inl hp

/-- With a fault-free store the trim-stale loop succeeds, touches only
documents, and every surviving document whose path was scanned passes
the probe. -/
theorem trimDocs_no_fault {env : Env}
    (H1 : ∀ q, env.removeFileFails q = false) :
    ∀ (ps : List String) (db : Db), ∃ db2,
      trimDocsLoop env ps db = (.ok (), db2) ∧
      db2.directories = db.directories ∧ db2.nextId = db.nextId ∧
      ∀ doc ∈ db2.documents, doc ∈ db.documents ∧
        (doc.path ∈ ps → env.metadata doc.path = true) := by
  intro ps
  induction ps with
  | nil =>
    intro db
    exact ⟨db, rfl, rfl, rfl, fun doc hd => ⟨hd, fun hmem => nomatch hmem⟩⟩
  | cons p rest ih =>
    intro db
    cases hm : env.metadata p with
    | true =>
      obtain ⟨db2, heq, hdirs, hnext, hmem⟩ := ih db
      refine ⟨db2, ?_, hdirs, hnext, ?_⟩
      · rw [trimDocsLoop, hm]
        exact heq
      · intro doc hd
        obtain ⟨hin, hscan⟩ := hmem doc hd
        refine ⟨hin, fun hps => ?_⟩
        rcases List.mem_cons.mp hps with hpp | hrest
        · rw [hpp]
          exact hm
        · exact hscan hrest
    | false =>
      obtain ⟨db2, heq, hdirs, hnext, hmem⟩ :=
        ih ⟨db.directories, db.documents.filter (fun d => !(d.path == p)), db.nextId⟩
      refine ⟨db2, ?_, hdirs, hnext, ?_⟩
      · rw [trimDocsLoop, hm, remove_file_by_path, H1 p]
        exact heq
      · intro doc hd
        obtain ⟨hin, hscan⟩ := hmem doc hd
        simp only [List.mem_filter, Bool.not_eq_eq_eq_not, Bool.not_true,
          beq_eq_false_iff_ne, ne_eq] at hin
        refine ⟨hin.1, fun hps => ?_⟩
        rcases List.mem_cons.mp hps with hpp | hrest
        · exact absurd hpp hin.2
        · exact hscan hrest

/-- The trim-stale loop is a no-op when every scanned path passes the
probe. -/
theorem trimDocs_noop {env : Env} :
    ∀ (ps : List String) (db : Db), (∀ q ∈ ps, env.metadata q = true) →
    trimDocsLoop env ps db = (.ok (), db) := by
  intro ps
  induction ps with
  | nil =>
    intro db h
    rfl
  | cons p rest ih =>
    intro db h
    rw [trimDocsLoop, h p (by simp)]
    exact ih db (fun q hq => h q (List.mem_cons_of_mem _ hq))

/-- Ensuring a root whose canonical path survives the trim preserves the
root invariant and the documents. -/
theorem ensure_root_inv {fps : List String} {root a : String}
    {db db1 : Db} (hmem : root ∈ fps)
    (hens : ensure_root root a db = .ok db1) (hro : RootsOk fps db) :
    RootsOk fps db1 ∧ db1.documents = db.documents := by
  unfold ensure_root at hens
  split at hens
  next dir hdir =>
    injection hens with h1
    subst h1
    exact ⟨hro, rfl⟩
  next hdir =>
    split at hens
    next e hins =>
      cases hens
    next dd dbn hins =>
      injection hens with h1
      subst h1
      obtain ⟨hdirs, hdocs, hpath, hpar⟩ := insert_directory_ok_shape hins
      refine ⟨?_, hdocs⟩
      intro d hd hp
      rw [hdirs] at hd
      rcases List.mem_append.mp hd with hold | hnew
      · exact hro d hold hp
      · have hde := List.mem_singleton.mp hnew
        subst hde
        rw [hpath]
        exact hmem

/-- The directory phase preserves the root invariant: every row it
inserts has a parent. -/
theorem walkDirs_rootsOk {fps : List String} : ∀ (l : List FsDirSpec)
    (db : Db) (r : Except Err Unit) (db' : Db),
    walkDirs l db = (r, db') → RootsOk fps db → RootsOk fps db' := by
  intro l
  induction l with
  | nil =>
    intro db r db' h hro
    rw [walkDirs] at h
    injection h with h1 h2
    subst h2
    exact hro
  | cons d rest ih =>
    intro db r db' h hro
    rw [walkDirs] at h
    split at h
    next x hdir =>
      exact ih db r db' h hro
    next hdir =>
      split at h
      next hp =>
        injection h with h1 h2
        subst h2
        exact hro
      next pd hp =>
        split at h
        next e hins =>
          injection h with h1 h2
          subst h2
          exact hro
        next dd db1 hins =>
          obtain ⟨hdirs1, -, -, hpar⟩ := insert_directory_ok_shape hins
          refine ih db1 r db' h ?_
          intro d2 hd2 hp2
          rw [hdirs1] at hd2
          rcases List.mem_append.mp hd2 with hold | hnew
          · exact hro d2 hold hp2
          · have hde := List.mem_singleton.mp hnew
            subst hde
            rw [hpar] at hp2
            cases hp2

/-- The document phase preserves the probe invariant when every file it
may insert passes the probe. -/
theorem walkDocs_docsOk {env : Env} : ∀ (l : List FsDocSpec) (db : Db)
    (r : Except Err Unit) (db' : Db), walkDocs l db = (r, db') →
    (∀ f ∈ l, env.metadata f.path = true) → DocsOk env db →
    DocsOk env db' := by
  intro l
  induction l with
  | nil =>
    intro db r db' h hf hdo
    rw [walkDocs] at h
    injection h with h1 h2
    subst h2
    exact hdo
  | cons f rest ih =>
    intro db r db' h hf hdo
    have hfr : ∀ g ∈ rest, env.metadata g.path = true :=
      fun g hg => hf g (List.mem_cons_of_mem _ hg)
    rw [walkDocs] at h
    split at h
    next hdir =>
      injection h with h1 h2
      subst h2
      exact hdo
    next dir hdir =>
      split at h
      next hpres =>
        exact ih db r db' h hfr hdo
      next hpres =>
        split at h
        next e hins =>
          injection h with h1 h2
          subst h2
          exact hdo
        next db1 hins =>
          refine ih db1 r db' h hfr ?_
          rcases insert_document_cases hins with ⟨hconf, heq⟩ | ⟨hnc, heq⟩
          · subst db1
            exact hdo
          · subst db1
            intro doc hdoc
            rcases List.mem_append.mp hdoc with hold | hnew
            · exact hdo doc hold
            · have hde := List.mem_singleton.mp hnew
              subst hde
              exact hf f (by simp)

/-- One walker invocation preserves both synchronization invariants. -/
theorem prd_inv {env : Env} {db : Db} {p a : String}
    {r : Except Err Unit} {db' : Db} {fps : List String}
    (h : process_root_directory env db p a = (r, db'))
    (hfp : ∀ root, env.canonicalize p = some root → root ∈ fps)
    (hdocs : ∀ root, env.canonicalize p = some root →
      ∀ f ∈ env.docs root, env.metadata f.path = true)
    (hro : RootsOk fps db) (hdo : DocsOk env db) :
    RootsOk fps db' ∧ DocsOk env db' := by
  unfold process_root_directory at h
  split at h
  next hc =>
    injection h with h1 h2
    subst h2
    exact ⟨hro, hdo⟩
  next root hc =>
    split at h
    next e hens =>
      obtain ⟨db1, hens2, -, -, -⟩ := ensure_root_spec root a db
      rw [hens2] at hens
      cases hens
    next db1 hens =>
      obtain ⟨hro1, hdocs1⟩ := ensure_root_inv (hfp root hc) hens hro
      have hdo1 : DocsOk env db1 := docsOk_of_docs_eq hdocs1 hdo
      unfold prd_after_ensure at h
      split at h
      next e db2 hwd =>
        injection h with h1 h2
        subst h2
        exact ⟨walkDirs_rootsOk _ _ _ _ hwd hro1,
          docsOk_of_docs_eq (walkDirs_ext _ _ _ _ hwd).2 hdo1⟩
      next u2 db2 hwd =>
        have hro2 := walkDirs_rootsOk _ _ _ _ hwd hro1
        have hdo2 := docsOk_of_docs_eq (walkDirs_ext _ _ _ _ hwd).2 hdo1
        exact ⟨rootsOk_of_dirs_eq (walkDocs_ext _ _ _ _ h).2.1 hro2,
          walkDocs_docsOk _ _ _ _ h (hdocs root hc) hdo2⟩

/-- The whole discovery loop preserves both synchronization
invariants. -/
theorem walkLoop_inv {env : Env} {fps : List String} :
    ∀ (cfg : List (String × String)) (db : Db),
    (∀ pr ∈ cfg, ∀ root, env.canonicalize pr.2 = some root → root ∈ fps) →
    (∀ pr ∈ cfg, ∀ root, env.canonicalize pr.2 = some root →
      ∀ f ∈ env.docs root, env.metadata f.path = true) →
    RootsOk fps db → DocsOk env db →
    RootsOk fps (walkLoop env cfg db).db ∧
      DocsOk env (walkLoop env cfg db).db := by
  intro cfg
  induction cfg with
  | nil =>
    intro db hfp hdocs hro hdo
    exact ⟨hro, hdo⟩
  | cons pr rest ih =>
    intro db hfp hdocs hro hdo
    obtain ⟨a, p⟩ := pr
    rw [walkLoop]
    cases hw : process_root_directory env db p a with
    | mk r db1 =>
      cases r with
      | error e =>
        exact prd_inv hw (hfp (a, p) (by simp)) (hdocs (a, p) (by simp)) hro hdo
      | ok u =>
        obtain ⟨hro1, hdo1⟩ :=
          prd_inv hw (hfp (a, p) (by simp)) (hdocs (a, p) (by simp)) hro hdo
        exact ih db1 (fun q hq => hfp q (List.mem_cons_of_mem _ hq))
          (fun q hq => hdocs q (List.mem_cons_of_mem _ hq)) hro1 hdo1

/-- Claim C5: over an unchanged filesystem and configuration (no store
faults during removals, and files the walker sees under a canonical root
passing the probe, as any coherent filesystem snapshot has), running
`sync` a second time leaves the catalog state exactly as the first run
left it — the second pass is a no-op on catalog state. -/
theorem sync_idempotent (env : Env) (cfg : List (String × String)) (db : Db)
    (H1 : ∀ q, env.removeFileFails q = false)
    (H2 : ∀ pr ∈ cfg, ∀ root, env.canonicalize pr.2 = some root →
      ∀ f ∈ env.docs root, env.metadata f.path = true) :
    (sync env cfg (sync env cfg db).db).db = (sync env cfg db).db := by
  obtain ⟨db2, htrim, hdirs2, hnext2, hmem2⟩ :=
    trimDocs_no_fault H1
      (get_all_file_paths
        (trim_roots ((cfg.map Prod.snd).filterMap env.canonicalize) db))
      (trim_roots ((cfg.map Prod.snd).filterMap env.canonicalize) db)
  have hro2 : RootsOk ((cfg.map Prod.snd).filterMap env.canonicalize) db2 :=
    rootsOk_of_dirs_eq hdirs2
      (trim_roots_rootsOk ((cfg.map Prod.snd).filterMap env.canonicalize) db)
  have hdo2 : DocsOk env db2 := by
    intro doc hd
    obtain ⟨hin, hscan⟩ := hmem2 doc hd
    exact hscan (List.mem_map_of_mem (fun d => d.path) hin)
  have hfp : ∀ pr ∈ cfg, ∀ root, env.canonicalize pr.2 = some root →
      root ∈ (cfg.map Prod.snd).filterMap env.canonicalize := by
    intro pr hpr root hc
    exact List.mem_filterMap.mpr ⟨pr.2, List.mem_map_of_mem Prod.snd hpr, hc⟩
  have hsync1 : sync env cfg db = walkLoop env cfg db2 := by
    unfold sync
    rw [htrim]
  obtain ⟨hroS, hdoS⟩ := walkLoop_inv cfg db2 hfp H2 hro2 hdo2
  have htrimroots2 :
      trim_roots ((cfg.map Prod.snd).filterMap env.canonicalize)
        (walkLoop env cfg db2).db = (walkLoop env cfg db2).db :=
    trim_roots_noop hroS
  have htrim2 :
      trimDocsLoop env (get_all_file_paths (walkLoop env cfg db2).db)
        (walkLoop env cfg db2).db = (.ok (), (walkLoop env cfg db2).db) := by
    refine trimDocs_noop _ _ ?_
    intro q hq
    obtain ⟨doc, hdoc, hqe⟩ := List.mem_map.mp hq
    rw [← hqe]
    exact hdoS doc hdoc
  have hsync2 : sync env cfg (walkLoop env cfg db2).db =
      walkLoop env cfg (walkLoop env cfg db2).db := by
    unfold sync
    rw [htrimroots2, htrim2]
  rw [hsync1, hsync2]
  rw [walkLoop_rerun cfg env db2 (walkLoop env cfg db2) rfl]

def envC5 : Env :=
  ⟨fun p => some p, fun _ => true, fun _ => none, fun _ => true,
   fun _ => [⟨"/r/sub", "sub", "/r"⟩],
   fun _ => [⟨42, "n.md", "/r", "/r/n.md", none, none, 1, 1⟩],
   fun _ => false⟩

def cfgC5 : List (String × String) := [("notes", "/r")]

/-- Witness for claim C5 at a concrete configuration: one root with one
subdirectory and one document; the hypotheses hold (no store faults and
all walker files pass the probe), and the theorem applies. -/
theorem sync_idempotent_witness :
    (sync envC5 cfgC5 (sync envC5 cfgC5 dbEmpty).db).db =
      (sync envC5 cfgC5 dbEmpty).db :=
  sync_idempotent envC5 cfgC5 dbEmpty (fun _ => rfl)
    (fun _ _ _ _ _ _ => rfl)
